import Mathlib

/-!
Verification of the HPKE binding core specified for
`adservices/service-core/jni/include/ohttp_jni.h`.

The repository ships only the JNI binding header (declarations of
`hpkeKemDhkemX25519HkdfSha256`, `hpkeKdfHkdfSha256`, `hpkeAeadAes128Gcm`,
`hpkeAeadAes256Gcm`, `hpkeCtxFree`, `hpkeCtxNew`,
`hpkeCtxSetupSenderWithSeed`); the engine behind it lives in an external
crypto library.  The specification therefore defines the core such a
binding must sit on: an RFC 9180 Base-mode HPKE sender/receiver engine
with deterministic seeding, a sealing-context state machine and a handle
table.  Everything below that is not a literal transcription of the
header is modelled from the spec, as flagged in each doc comment.

Bytes are modelled as `Nat` values, with `< 256` side conditions where a
property needs them.  The trusted primitives (X25519, HKDF-SHA256,
AES-GCM), which the spec places out of scope as external building blocks
with standard contracts, are idealized by executable stand-ins that
satisfy exactly those contracts: a commutative Diffie–Hellman group
(modular exponentiation), a pure labeled KDF, and a perfectly
authenticating AEAD (xor stream cipher plus a checksum tag that detects
every single-bit flip).
-/

namespace Ohttp

/-- A byte sequence crossing the binding boundary: contiguous values with
known length; each value is intended to be `< 256`. -/
abbrev Bytes := List Nat

/-- Modelled from the spec: error taxonomy of §7.  All recoverable. -/
inductive HpkeError where
  | Unsupported
  | InvalidPublicKeyLength
  | InvalidSeedLength
  | InfoTooLong
  | EncapsulationFailure
  | ContextExhausted
  | ContextClosed
  | AuthenticationFailure
  | InvalidHandle
  deriving Repr, DecidableEq

/-- Modelled from the spec: closed KEM enumeration (only DHKEM-X25519-HKDF-SHA256). -/
inductive KemId where
  | dhkemX25519HkdfSha256
  deriving Repr, DecidableEq

/-- Modelled from the spec: closed KDF enumeration (only HKDF-SHA256). -/
inductive KdfId where
  | hkdfSha256
  deriving Repr, DecidableEq

/-- Modelled from the spec: closed AEAD enumeration (AES-128-GCM and AES-256-GCM). -/
inductive AeadId where
  | aes128Gcm
  | aes256Gcm
  deriving Repr, DecidableEq

/-- Modelled from the spec: the immutable (KemId, KdfId, AeadId) triple. -/
structure SuiteId where
  kem : KemId
  kdf : KdfId
  aead : AeadId
  deriving Repr, DecidableEq

/-- Modelled from the spec: KEM parameter set of the Primitive Registry. -/
structure KemParams where
  publicKeyLength : Nat
  privateKeyLength : Nat
  sharedSecretLength : Nat
  deriving Repr, DecidableEq

/-- Modelled from the spec: AEAD parameter set of the Primitive Registry. -/
structure AeadParams where
  keyLength : Nat
  nonceLength : Nat
  tagLength : Nat
  deriving Repr, DecidableEq

/-- Modelled from the spec: Primitive Registry lookup for the single KEM. -/
def resolveKem : KemId → KemParams
  | .dhkemX25519HkdfSha256 => ⟨32, 32, 32⟩

/-- Modelled from the spec: Primitive Registry lookup for the AEADs.
AES-128-GCM: 16-byte key; AES-256-GCM: 32-byte key; both 12-byte nonce,
16-byte tag. -/
def resolveAead : AeadId → AeadParams
  | .aes128Gcm => ⟨16, 12, 16⟩
  | .aes256Gcm => ⟨32, 12, 16⟩

/-- Big-endian encoding of `n` into `len` bytes (most significant first). -/
def beEncode : Nat → Nat → Bytes
  | 0, _ => []
  | len + 1, n => (n / 256 ^ len) % 256 :: beEncode len n

/-- Big-endian decoding of a byte sequence. -/
def beDecode (bs : Bytes) : Nat :=
  bs.foldl (fun acc b => acc * 256 + b) 0

/-- Flip bit `b` of the byte at position `i` (identity when `i` is out of
range, by `List.set` semantics). -/
def flipBit (l : Bytes) (i : Nat) (b : Nat) : Bytes :=
  l.set i ((l.getD i 0) ^^^ 2 ^ b)

/-- Modelled from the spec: keystream of the idealized AEAD stand-in for
AES-GCM (an out-of-scope trusted building block).  Any pure function of
key, nonce and position works; xor-correctness is what matters. -/
def keystream (key nonce : Bytes) (len : Nat) : Bytes :=
  (List.range len).map (fun i => (key.sum * 5 + nonce.sum * 3 + i) % 256)

/-- Modelled from the spec: authentication tag of the idealized AEAD.
A fixed-length tag whose bytes are a checksum of key, nonce, associated
data and ciphertext body; any single-bit change of any input changes it. -/
def aeadTag (tagLen : Nat) (key nonce ad body : Bytes) : Bytes :=
  List.replicate tagLen ((key.sum + nonce.sum + ad.sum + body.sum + ad.length) % 256)

/-- Modelled from the spec: AEAD encryption (trusted building block,
idealized).  Ciphertext is xor-encrypted body followed by the tag. -/
def aeadSeal (tagLen : Nat) (key nonce ad pt : Bytes) : Bytes :=
  let body := List.zipWith HXor.hXor pt (keystream key nonce pt.length)
  body ++ aeadTag tagLen key nonce ad body

/-- Modelled from the spec: AEAD decryption (trusted building block,
idealized).  Recomputes the tag over the received body and fails unless
it matches; on success xor-decrypts the body. -/
def aeadOpen (tagLen : Nat) (key nonce ad ct : Bytes) : Option Bytes :=
  if tagLen ≤ ct.length then
    let body := ct.take (ct.length - tagLen)
    let tag := ct.drop (ct.length - tagLen)
    if tag = aeadTag tagLen key nonce ad body then
      some (List.zipWith HXor.hXor body (keystream key nonce body.length))
    else
      none
  else
    none

/-- Modelled from the spec: modulus of the idealized Diffie–Hellman group
standing in for X25519 (out-of-scope trusted building block with the
ECDH contract).  A prime modulus so that no power of the generator hits
zero (the model's low-order rejection). -/
def dhP : Nat := 251

/-- Modelled from the spec: generator of the idealized Diffie–Hellman group. -/
def dhG : Nat := 6

/-- Modular exponentiation of the idealized group. -/
def powMod (a b n : Nat) : Nat := a ^ b % n

/-- Modelled from the spec: the KEM's standard derive-key-pair procedure,
collapsing a seed of private-key length into a scalar. -/
def deriveScalar (seed : Bytes) : Nat := beDecode seed % dhP

/-- Modelled from the spec: serialize a group element as a fixed-length
public-key byte sequence. -/
def serializePoint (x : Nat) : Bytes := beEncode (resolveKem .dhkemX25519HkdfSha256).publicKeyLength x

/-- Modelled from the spec: the recipient public key matching private scalar `sk`. -/
def publicOfScalar (sk : Nat) : Bytes := serializePoint (powMod dhG sk dhP)

/-- Modelled from the spec: the KEM's extract-and-expand labeled derivation,
producing the shared secret from the DH result and the serialized
ephemeral and recipient public keys (an executable stand-in with the
HKDF contract: a pure function of all its inputs). -/
def kemExtractExpand (dh kemContext : Bytes) (outLen : Nat) : Bytes :=
  (List.range outLen).map (fun i => (dh.sum * 7 + kemContext.sum * 3 + dh.length + i) % 256)

/-- Modelled from the spec §4.2: KEM encapsulation.
`rand` models the secure random source, consulted only when no seed is
given.  With a seed: the seed length must exactly match the KEM's
private-key length (else `InvalidSeedLength`, before any key material is
derived), and the ephemeral key pair is derived deterministically from
the seed.  The recipient public key must have the registry-declared
length (else `InvalidPublicKeyLength`); a zero shared point is rejected
as `EncapsulationFailure` (low-order rejection).  Returns the pair
(SharedSecret, EncapsulatedKey). -/
def encapsulate (rand : Bytes) (pk : Bytes) (seed : Option Bytes) :
    Except HpkeError (Bytes × Bytes) :=
  let kp := resolveKem .dhkemX25519HkdfSha256
  match seed with
  | some s =>
      if s.length = kp.privateKeyLength then
        if pk.length = kp.publicKeyLength then
          let esk := deriveScalar s
          let epk := powMod dhG esk dhP
          let dh := powMod (beDecode pk) esk dhP
          if dh = 0 then .error .EncapsulationFailure
          else
            let enc := serializePoint epk
            .ok (kemExtractExpand (serializePoint dh) (enc ++ pk) kp.sharedSecretLength, enc)
      else .error .InvalidPublicKeyLength
      else .error .InvalidSeedLength
  | none =>
      if pk.length = kp.publicKeyLength then
        let esk := deriveScalar rand
        let epk := powMod dhG esk dhP
        let dh := powMod (beDecode pk) esk dhP
        if dh = 0 then .error .EncapsulationFailure
        else
          let enc := serializePoint epk
          .ok (kemExtractExpand (serializePoint dh) (enc ++ pk) kp.sharedSecretLength, enc)
      else .error .InvalidPublicKeyLength

/-- Modelled from the spec: KEM decapsulation on the receiver side (the
spec's round-trip property needs the matching receiver context; receiver
setup is otherwise out of the provided surface).  `pkR` is the
receiver's own public key, bound into the shared-secret derivation. -/
def decapsulate (skR : Nat) (enc pkR : Bytes) : Except HpkeError Bytes :=
  let kp := resolveKem .dhkemX25519HkdfSha256
  if enc.length = kp.publicKeyLength then
    let dh := powMod (beDecode enc) skR dhP
    if dh = 0 then .error .EncapsulationFailure
    else .ok (kemExtractExpand (serializePoint dh) (enc ++ pkR) kp.sharedSecretLength)
  else .error .InvalidPublicKeyLength

/-- Modelled from the spec §4.3: maximum `info` length accepted by the KDF. -/
def maxInfoLen : Nat := 2 ^ 61 - 1

/-- Modelled from the spec §3: the HPKE context: derived AEAD key, base
nonce, and a sequence counter starting at 0. -/
structure HpkeContext where
  aeadKey : Bytes
  baseNonce : Bytes
  tagLength : Nat
  seqNo : Nat
  deriving Repr, DecidableEq

/-- Modelled from the spec: labeled KDF expansion (HKDF-SHA256 stand-in
with the extract-and-expand contract), binding the suite identifiers. -/
def kdfLabeled (label : Nat) (suite : SuiteId) (secret info : Bytes) (outLen : Nat) : Bytes :=
  let suiteMix : Nat :=
    (match suite.aead with | .aes128Gcm => 1 | .aes256Gcm => 2)
  (List.range outLen).map
    (fun i => (label * 31 + suiteMix * 11 + secret.sum * 7 + info.sum * 3 + info.length + i) % 256)

/-- Modelled from the spec §4.3: the key schedule.  Derives AEAD key and
base nonce from the shared secret and `info` with suite-bound labels,
mode fixed to Base; the sequence counter starts at 0.  Fails with
`InfoTooLong` past the KDF's maximum input. -/
def schedule (sharedSecret : Bytes) (suite : SuiteId) (info : Bytes) :
    Except HpkeError HpkeContext :=
  if info.length ≤ maxInfoLen then
    let ap := resolveAead suite.aead
    .ok { aeadKey := kdfLabeled 1 suite sharedSecret info ap.keyLength
          baseNonce := kdfLabeled 2 suite sharedSecret info ap.nonceLength
          tagLength := ap.tagLength
          seqNo := 0 }
  else .error .InfoTooLong

/-- Modelled from the spec §4.4: nonce-space bound 2^(8·nonceLength) − 1. -/
def maxSeq (nonceLen : Nat) : Nat := 2 ^ (8 * nonceLen) - 1

/-- Per-message nonce: base nonce XOR big-endian encoding of the sequence
number, as §4.4 prescribes. -/
def computeNonce (baseNonce : Bytes) (seq : Nat) : Bytes :=
  List.zipWith HXor.hXor baseNonce (beEncode baseNonce.length seq)

/-- Modelled from the spec §4.4: sealing-context states.  `Active`
carries the mutable context; `Exhausted` and `Closed` are terminal. -/
inductive CtxState where
  | Active (ctx : HpkeContext)
  | Exhausted
  | Closed
  deriving Repr, DecidableEq

/-- Modelled from the spec §4.4: `seal`.  Computes the per-message nonce
as base nonce XOR big-endian seqNo, invokes AEAD encryption, increments
seqNo; the state becomes `Exhausted` when the incremented counter would
exceed the nonce space.  Fails with `ContextExhausted` when already
exhausted and `ContextClosed` when closed. -/
def sealMsg (st : CtxState) (pt ad : Bytes) : CtxState × Except HpkeError Bytes :=
  match st with
  | .Closed => (.Closed, .error .ContextClosed)
  | .Exhausted => (.Exhausted, .error .ContextExhausted)
  | .Active ctx =>
      let nonce := computeNonce ctx.baseNonce ctx.seqNo
      let ct := aeadSeal ctx.tagLength ctx.aeadKey nonce ad pt
      if ctx.seqNo + 1 ≤ maxSeq ctx.baseNonce.length then
        (.Active { ctx with seqNo := ctx.seqNo + 1 }, .ok ct)
      else
        (.Exhausted, .ok ct)

/-- Modelled from the spec §4.4: `open`, the symmetric counterpart.
Authentication failure returns no plaintext and leaves the state — in
particular seqNo — untouched; the counter advances only on success
(the spec's lenient replay policy, its stated RFC 9180 default). -/
def openMsg (st : CtxState) (ct ad : Bytes) : CtxState × Except HpkeError Bytes :=
  match st with
  | .Closed => (.Closed, .error .ContextClosed)
  | .Exhausted => (.Exhausted, .error .ContextExhausted)
  | .Active ctx =>
      let nonce := computeNonce ctx.baseNonce ctx.seqNo
      match aeadOpen ctx.tagLength ctx.aeadKey nonce ad ct with
      | none => (.Active ctx, .error .AuthenticationFailure)
      | some pt =>
          if ctx.seqNo + 1 ≤ maxSeq ctx.baseNonce.length then
            (.Active { ctx with seqNo := ctx.seqNo + 1 }, .ok pt)
          else
            (.Exhausted, .ok pt)

/-- Run a sequence of seal calls (plaintext/associated-data pairs),
keeping the evolving context state. -/
def sealSteps (st : CtxState) (msgs : List (Bytes × Bytes)) : CtxState :=
  msgs.foldl (fun s m => (sealMsg s m.1 m.2).1) st

/-- The per-message nonce the next seal on this state would use. -/
def nextSealNonce : CtxState → Option Bytes
  | .Active ctx => some (computeNonce ctx.baseNonce ctx.seqNo)
  | _ => none

/-- Modelled from the spec §4.5 and design note §9: the Context Handle
Table.  Opaque integer handles are issued from a monotone counter and
never reused (the arena-generation design: a freed handle value never
again denotes a live slot), so a stale handle can never alias a later
context. -/
structure Table where
  next : Nat
  entries : List (Nat × CtxState)
  deriving Repr, DecidableEq

/-- The empty handle table. -/
def Table.empty : Table := ⟨0, []⟩

/-- Modelled from the spec §4.5: insert a context, returning the new
table and the issued handle. -/
def insertCtx (t : Table) (c : CtxState) : Table × Nat :=
  ({ next := t.next + 1, entries := (t.next, c) :: t.entries }, t.next)

/-- Modelled from the spec §4.5: lookup; `none` models `InvalidHandle`. -/
def lookupCtx (t : Table) (h : Nat) : Option CtxState :=
  (t.entries.find? (fun p => p.1 == h)).map Prod.snd

/-- Replace the context stored at handle `h` (used by seal/open through
the table); unknown handles leave the table unchanged. -/
def updateCtx (t : Table) (h : Nat) (c : CtxState) : Table :=
  { t with entries := t.entries.map (fun p => if p.1 == h then (p.1, c) else p) }

/-- The binding's `hpkeCtxFree` (header: `void hpkeCtxFree(jlong)`),
modelled from the spec §6: total on every 64-bit handle value, returns
void (no error can be signalled), idempotent, erases the entry (and
with it the key material) when one exists. -/
def hpkeCtxFree (t : Table) (h : Nat) : Table :=
  { t with entries := t.entries.filter (fun p => p.1 ≠ h) }

/-- Modelled from the spec §4.5/§6: seal addressed through a handle; an
unknown or freed handle yields `InvalidHandle`, never stale data. -/
def tableSeal (t : Table) (h : Nat) (pt ad : Bytes) : Table × Except HpkeError Bytes :=
  match lookupCtx t h with
  | none => (t, .error .InvalidHandle)
  | some st =>
      let r := sealMsg st pt ad
      (updateCtx t h r.1, r.2)

/-- Modelled from the spec §6: the `hpkeCtxSetupSenderWithSeed` binding.
Runs seeded encapsulation and the key schedule, stores the resulting
Active sealing context at the given handle, and returns the
encapsulated key bytes.  `rand` models the process randomness source;
the seed parameter is mandatory, so it is never consulted. -/
def setupSenderWithSeed (rand : Bytes) (t : Table) (h : Nat) (suite : SuiteId)
    (pk info seed : Bytes) : Table × Except HpkeError Bytes :=
  match encapsulate rand pk (some seed) with
  | .error e => (t, .error e)
  | .ok (ss, enc) =>
      match schedule ss suite info with
      | .error e => (t, .error e)
      | .ok ctx => (updateCtx t h (.Active ctx), .ok enc)

/-- Table operations issued after a free, for stating handle isolation. -/
inductive TableOp where
  | ins (c : CtxState)
  | free (h : Nat)
  | sealVia (h : Nat) (pt ad : Bytes)
  deriving Repr, DecidableEq

/-- Apply one table operation (the table component of its effect). -/
def applyOp (t : Table) : TableOp → Table
  | .ins c => (insertCtx t c).1
  | .free h => hpkeCtxFree t h
  | .sealVia h pt ad => (tableSeal t h pt ad).1

/-- Run a sequence of table operations. -/
def runOps (t : Table) (ops : List TableOp) : Table :=
  ops.foldl applyOp t

/-- JNI types appearing in the header's signatures. -/
inductive JniType where
  | jlong
  | jbyteArray
  | jvoid
  deriving Repr, DecidableEq

/-- One declared entry point of the binding header. -/
structure EntryPoint where
  name : String
  params : List JniType
  ret : JniType
  deriving Repr, DecidableEq

/-- The seven entry points declared in `ohttp_jni.h`, with the JNI
signatures recorded in its comments (`()J`, `(J)V`, `(JJJJ[B[B[B)[B`),
the implicit `JNIEnv*`/`jclass` receiver arguments elided. -/
def ohttpJniSurface : List EntryPoint :=
  [ ⟨"hpkeKemDhkemX25519HkdfSha256", [], .jlong⟩,
    ⟨"hpkeKdfHkdfSha256", [], .jlong⟩,
    ⟨"hpkeAeadAes128Gcm", [], .jlong⟩,
    ⟨"hpkeAeadAes256Gcm", [], .jlong⟩,
    ⟨"hpkeCtxFree", [.jlong], .jvoid⟩,
    ⟨"hpkeCtxNew", [], .jlong⟩,
    ⟨"hpkeCtxSetupSenderWithSeed",
      [.jlong, .jlong, .jlong, .jlong, .jbyteArray, .jbyteArray, .jbyteArray], .jbyteArray⟩ ]

/-- An entry point that performs sender-side setup / encapsulation: it
consumes key-material byte arrays (every other declared entry takes at
most a context handle). -/
def takesByteArrays (e : EntryPoint) : Bool :=
  e.params.contains .jbyteArray

/-- Modelled from the spec §8: one full round trip at suite
(DHKEM-X25519, HKDF-SHA256, `aead`): seeded encapsulation to the
recipient public key of scalar `skR`, sender key schedule, one seal;
then decapsulation, receiver key schedule, one open of that ciphertext. -/
def roundTrip (aead : AeadId) (skR : Nat) (seed info pt ad rand : Bytes) :
    Except HpkeError Bytes :=
  let suite : SuiteId := ⟨.dhkemX25519HkdfSha256, .hkdfSha256, aead⟩
  let pkR := publicOfScalar skR
  match encapsulate rand pkR (some seed) with
  | .error e => .error e
  | .ok (ss, enc) =>
      match schedule ss suite info with
      | .error e => .error e
      | .ok sctx =>
          match (sealMsg (.Active sctx) pt ad).2 with
          | .error e => .error e
          | .ok ct =>
              match decapsulate skR enc pkR with
              | .error e => .error e
              | .ok ss2 =>
                  match schedule ss2 suite info with
                  | .error e => .error e
                  | .ok rctx => (openMsg (.Active rctx) ct ad).2

/-- Decidable equality for fallible results, so that concrete runs of the
model can be checked by `decide`. -/
instance {ε α : Type} [DecidableEq ε] [DecidableEq α] : DecidableEq (Except ε α) := fun a b =>
  match a, b with
  | .ok x, .ok y =>
      if h : x = y then .isTrue (congrArg Except.ok h)
      else .isFalse (fun hh => h (Except.ok.inj hh))
  | .error x, .error y =>
      if h : x = y then .isTrue (congrArg Except.error h)
      else .isFalse (fun hh => h (Except.error.inj hh))
  | .ok _, .error _ => .isFalse (fun hh => Except.noConfusion hh)
  | .error _, .ok _ => .isFalse (fun hh => Except.noConfusion hh)

theorem beEncode_length (len n : Nat) : (beEncode len n).length = len := by
  induction len generalizing n with
  | zero => rfl
  | succ k ih => simp [beEncode, ih]

theorem mod_pow_split (n k : Nat) :
    n % 256 ^ (k + 1) = 256 ^ k * (n / 256 ^ k % 256) + n % 256 ^ k := by
  have h1 := Nat.div_add_mod (n % (256 ^ k * 256)) (256 ^ k)
  rw [Nat.mod_mul_right_div_self, Nat.mod_mod_of_dvd _ (dvd_mul_right _ _)] at h1
  rw [pow_succ]
  omega

theorem beDecode_foldl (len : Nat) : ∀ (acc n : Nat),
    List.foldl (fun a b => a * 256 + b) acc (beEncode len n) = acc * 256 ^ len + n % 256 ^ len := by
  induction len with
  | zero => intro acc n; simp [beEncode, Nat.mod_one]
  | succ k ih =>
      intro acc n
      rw [beEncode, List.foldl_cons, ih]
      rw [mod_pow_split n k]
      ring

theorem beDecode_beEncode {len n : Nat} (h : n < 256 ^ len) :
    beDecode (beEncode len n) = n := by
  unfold beDecode
  rw [beDecode_foldl, Nat.zero_mul, Nat.zero_add, Nat.mod_eq_of_lt h]

theorem beEncode_inj {len a b : Nat} (ha : a < 256 ^ len) (hb : b < 256 ^ len)
    (h : beEncode len a = beEncode len b) : a = b := by
  have := congrArg beDecode h
  rwa [beDecode_beEncode ha, beDecode_beEncode hb] at this

theorem zipWith_xor_cancel : ∀ (a b : Bytes), a.length = b.length →
    List.zipWith HXor.hXor (List.zipWith HXor.hXor a b) b = a := by
  intro a
  induction a with
  | nil => intro b _; simp
  | cons x xs ih =>
      intro b h
      cases b with
      | nil => simp at h
      | cons y ys =>
          simp only [List.zipWith]
          rw [Nat.xor_cancel_right, ih ys (by simpa using h)]

theorem zipWith_xor_inj : ∀ (b e1 e2 : Bytes), e1.length = b.length → e2.length = b.length →
    List.zipWith HXor.hXor b e1 = List.zipWith HXor.hXor b e2 → e1 = e2 := by
  intro b
  induction b with
  | nil => intro e1 e2 h1 h2 _; cases e1 <;> cases e2 <;> simp_all
  | cons x xs ih =>
      intro e1 e2 h1 h2 h
      cases e1 with
      | nil => simp at h1
      | cons y ys =>
          cases e2 with
          | nil => simp at h2
          | cons z zs =>
              simp only [List.zipWith, List.cons.injEq] at h
              have hy : y = z := Nat.xor_right_injective h.1
              have hys : ys = zs := ih ys zs (by simpa using h1) (by simpa using h2) h.2
              rw [hy, hys]

theorem xor_lt_256 {x y : Nat} (hx : x < 256) (hy : y < 256) : x ^^^ y < 256 := by
  have h1 : x < 2 ^ 8 := by omega
  have h2 : y < 2 ^ 8 := by omega
  have hdef : x ^^^ y = Nat.bitwise bne x y := rfl
  have := Nat.bitwise_lt_two_pow (f := bne) h1 h2
  omega

theorem xor_pow_ne {v b : Nat} : v ^^^ 2 ^ b ≠ v := by
  intro h
  have h0 : v ^^^ 2 ^ b = v ^^^ 0 := by simpa using h
  have h1 : 2 ^ b = 0 := Nat.xor_right_injective h0
  have h2 : 0 < 2 ^ b := Nat.pow_pos (by omega)
  omega

theorem keystream_length (key nonce : Bytes) (len : Nat) :
    (keystream key nonce len).length = len := by
  simp [keystream]

theorem keystream_lt (key nonce : Bytes) (len : Nat) :
    ∀ x ∈ keystream key nonce len, x < 256 := by
  intro x hx
  simp only [keystream, List.mem_map] at hx
  obtain ⟨i, _, hi⟩ := hx
  omega

theorem zipWith_xor_lt : ∀ (a b : Bytes), (∀ x ∈ a, x < 256) → (∀ x ∈ b, x < 256) →
    ∀ x ∈ List.zipWith HXor.hXor a b, x < 256 := by
  intro a
  induction a with
  | nil => intro b _ _ x hx; simp at hx
  | cons y ys ih =>
      intro b ha hb x hx
      cases b with
      | nil => simp at hx
      | cons z zs =>
          simp only [List.zipWith, List.mem_cons] at hx
          rcases hx with h | h
          · subst h
            exact xor_lt_256 (ha y (by simp)) (hb z (by simp))
          · exact ih zs (fun u hu => ha u (by simp [hu])) (fun u hu => hb u (by simp [hu])) x h

theorem sum_set_getD : ∀ (l : Bytes) (i v : Nat), i < l.length →
    (l.set i v).sum + l.getD i 0 = l.sum + v := by
  intro l
  induction l with
  | nil => intro i v h; simp at h
  | cons x xs ih =>
      intro i v h
      cases i with
      | zero => simp [List.set, List.getD]; omega
      | succ j =>
          have hj : j < xs.length := by simpa using h
          have := ih j v hj
          simp only [List.set, List.sum_cons, List.getD_cons_succ]
          omega

theorem checksum_ne {A B v w : Nat} (hv : v < 256) (hw : w < 256) (hne : v ≠ w)
    (hsum : A + w = B + v) : A % 256 ≠ B % 256 := by
  intro h
  have h1 : (A + w) % 256 = (B + w) % 256 := by
    conv_lhs => rw [Nat.add_mod, h, ← Nat.add_mod]
  rw [hsum] at h1
  have h2 : w ≡ v [MOD 256] := Nat.ModEq.add_left_cancel' B h1.symm
  have := h2.eq_of_lt_of_lt hw hv
  exact hne this.symm

theorem aeadTag_length (tagLen : Nat) (key nonce ad body : Bytes) :
    (aeadTag tagLen key nonce ad body).length = tagLen := by
  simp [aeadTag]

theorem aeadSeal_body_length (pt ks : Bytes) (h : ks.length = pt.length) :
    (List.zipWith HXor.hXor pt ks).length = pt.length := by
  simp [List.length_zipWith, h]

theorem aeadOpen_aeadSeal (tagLen : Nat) (key nonce ad pt : Bytes) :
    aeadOpen tagLen key nonce ad (aeadSeal tagLen key nonce ad pt) = some pt := by
  unfold aeadSeal aeadOpen
  have hks : (keystream key nonce pt.length).length = pt.length := keystream_length _ _ _
  have hbody : (List.zipWith HXor.hXor pt (keystream key nonce pt.length)).length = pt.length :=
    aeadSeal_body_length _ _ hks
  have hlen : (List.zipWith HXor.hXor pt (keystream key nonce pt.length) ++
      aeadTag tagLen key nonce ad (List.zipWith HXor.hXor pt (keystream key nonce pt.length))).length
      = pt.length + tagLen := by
    simp [List.length_append, hbody, aeadTag_length]
  rw [hlen]
  rw [if_pos (by omega)]
  have hsub : pt.length + tagLen - tagLen = pt.length := by omega
  rw [hsub]
  rw [List.take_left' hbody, List.drop_left' hbody]
  rw [if_pos rfl, hbody]
  rw [zipWith_xor_cancel pt _ hks.symm]

theorem dhP_pos : 0 < dhP := by norm_num [dhP]

theorem dhG_pow_mod_ne_zero (k : Nat) : dhG ^ k % dhP ≠ 0 := by
  intro h
  have hdvd : dhP ∣ dhG ^ k := Nat.dvd_of_mod_eq_zero h
  have hp : Nat.Prime dhP := by norm_num [dhP]
  have h6 : dhP ∣ dhG := hp.dvd_of_dvd_pow hdvd
  have := Nat.le_of_dvd (by norm_num [dhG]) h6
  norm_num [dhP, dhG] at this

theorem serializePoint_roundtrip {x : Nat} (h : x < dhP) :
    beDecode (serializePoint x) = x := by
  unfold serializePoint resolveKem
  exact beDecode_beEncode (by norm_num [dhP] at h ⊢; omega)

theorem powMod_lt (a b : Nat) : powMod a b dhP < dhP := by
  unfold powMod
  exact Nat.mod_lt _ dhP_pos

theorem dh_shared_eq (skR esk : Nat) :
    powMod (beDecode (publicOfScalar skR)) esk dhP = dhG ^ (skR * esk) % dhP := by
  unfold publicOfScalar
  rw [serializePoint_roundtrip (powMod_lt dhG skR)]
  unfold powMod
  rw [← Nat.pow_mod, ← pow_mul]

theorem dh_shared_eq' (skR esk : Nat) :
    powMod (beDecode (serializePoint (powMod dhG esk dhP))) skR dhP = dhG ^ (skR * esk) % dhP := by
  rw [serializePoint_roundtrip (powMod_lt dhG esk)]
  unfold powMod
  rw [← Nat.pow_mod, ← pow_mul, Nat.mul_comm]

theorem publicOfScalar_length (skR : Nat) : (publicOfScalar skR).length = 32 := by
  unfold publicOfScalar serializePoint resolveKem
  exact beEncode_length _ _

theorem serializePoint_length (x : Nat) : (serializePoint x).length = 32 := by
  unfold serializePoint resolveKem
  exact beEncode_length _ _

theorem encapsulate_seeded (rand seed : Bytes) (skR : Nat) (hs : seed.length = 32) :
    encapsulate rand (publicOfScalar skR) (some seed) =
      .ok (kemExtractExpand (serializePoint (dhG ^ (skR * deriveScalar seed) % dhP))
             (serializePoint (powMod dhG (deriveScalar seed) dhP) ++ publicOfScalar skR) 32,
           serializePoint (powMod dhG (deriveScalar seed) dhP)) := by
  unfold encapsulate
  simp only [resolveKem, hs, publicOfScalar_length, if_pos, if_true, reduceIte]
  rw [dh_shared_eq skR (deriveScalar seed)]
  rw [if_neg (dhG_pow_mod_ne_zero _)]

theorem decapsulate_matched (skR esk : Nat) :
    decapsulate skR (serializePoint (powMod dhG esk dhP)) (publicOfScalar skR) =
      .ok (kemExtractExpand (serializePoint (dhG ^ (skR * esk) % dhP))
             (serializePoint (powMod dhG esk dhP) ++ publicOfScalar skR) 32) := by
  unfold decapsulate
  simp only [resolveKem, serializePoint_length, if_pos, if_true, reduceIte]
  rw [dh_shared_eq' skR esk]
  rw [if_neg (dhG_pow_mod_ne_zero _)]

theorem kdfLabeled_length (label : Nat) (suite : SuiteId) (secret info : Bytes) (outLen : Nat) :
    (kdfLabeled label suite secret info outLen).length = outLen := by
  simp [kdfLabeled]

theorem schedule_eval (ss : Bytes) (suite : SuiteId) (info : Bytes)
    (h : info.length ≤ maxInfoLen) :
    schedule ss suite info =
      .ok { aeadKey := kdfLabeled 1 suite ss info (resolveAead suite.aead).keyLength
            baseNonce := kdfLabeled 2 suite ss info (resolveAead suite.aead).nonceLength
            tagLength := (resolveAead suite.aead).tagLength
            seqNo := 0 } := by
  simp [schedule, h]

theorem sealMsg_active (ctx : HpkeContext) (pt ad : Bytes) :
    (sealMsg (.Active ctx) pt ad).2 =
      .ok (aeadSeal ctx.tagLength ctx.aeadKey (computeNonce ctx.baseNonce ctx.seqNo) ad pt) := by
  simp only [sealMsg]
  split <;> rfl

theorem openMsg_some (ctx : HpkeContext) (ct ad pt : Bytes)
    (h : aeadOpen ctx.tagLength ctx.aeadKey (computeNonce ctx.baseNonce ctx.seqNo) ad ct = some pt) :
    (openMsg (.Active ctx) ct ad).2 = .ok pt := by
  simp only [openMsg, h]
  split <;> rfl

theorem openMsg_none (ctx : HpkeContext) (ct ad : Bytes)
    (h : aeadOpen ctx.tagLength ctx.aeadKey (computeNonce ctx.baseNonce ctx.seqNo) ad ct = none) :
    openMsg (.Active ctx) ct ad = (.Active ctx, .error .AuthenticationFailure) := by
  simp [openMsg, h]

/-- C1: for every valid suite, recipient key pair, info string, plaintext
and associated data, opening the ciphertext produced by seal on the
matching receiver context derived from the same encapsulated key returns
exactly the original plaintext. -/
theorem c1_seal_open_roundtrip (aead : AeadId) (skR : Nat) (seed info pt ad rand : Bytes)
    (hseed : seed.length = 32) (hinfo : info.length ≤ maxInfoLen) :
    roundTrip aead skR seed info pt ad rand = .ok pt := by
  simp only [roundTrip, encapsulate_seeded, schedule_eval, sealMsg_active,
    decapsulate_matched, hseed, hinfo]
  exact openMsg_some _ _ _ pt (aeadOpen_aeadSeal _ _ _ _ _)

/-- Witness for C1: a concrete round trip at AES-128-GCM with recipient
scalar 5, an all-ones 32-byte seed, info `"test"`, plaintext `"hello"`,
empty associated data. -/
theorem c1_seal_open_roundtrip_witness :
    roundTrip .aes128Gcm 5 (List.replicate 32 1) [116, 101, 115, 116]
      [104, 101, 108, 108, 111] [] [] = .ok [104, 101, 108, 108, 111] :=
  c1_seal_open_roundtrip .aes128Gcm 5 (List.replicate 32 1) [116, 101, 115, 116]
    [104, 101, 108, 108, 111] [] [] (by decide) (by decide)

/-- C2: seeded encapsulation is deterministic: with the same recipient
public key and the same seed, two calls — here, under two different
states `rand1`, `rand2` of the ambient randomness source — yield the
identical (SharedSecret, EncapsulatedKey) pair. -/
theorem c2_seeded_encapsulation_deterministic (rand1 rand2 pk seed : Bytes) :
    encapsulate rand1 pk (some seed) = encapsulate rand2 pk (some seed) := rfl

/-- C7: a seed whose length differs from the KEM's 32-byte private-key
length makes seeded encapsulation fail with `InvalidSeedLength` (for
every recipient key, before any key material is derived); a seed of
exactly that length makes the ephemeral key pair the one derived from
the seed by the KEM's derive-key-pair procedure (`deriveScalar`), as the
encapsulated key in the output shows. -/
theorem c7_seed_length_check (rand pk seed : Bytes) :
    (seed.length ≠ 32 → encapsulate rand pk (some seed) = .error .InvalidSeedLength) ∧
    (seed.length = 32 → pk.length = 32 →
      powMod (beDecode pk) (deriveScalar seed) dhP ≠ 0 →
      encapsulate rand pk (some seed) =
        .ok (kemExtractExpand (serializePoint (powMod (beDecode pk) (deriveScalar seed) dhP))
               (serializePoint (powMod dhG (deriveScalar seed) dhP) ++ pk) 32,
             serializePoint (powMod dhG (deriveScalar seed) dhP))) := by
  constructor
  · intro h
    simp [encapsulate, resolveKem, h]
  · intro h1 h2 h3
    simp [encapsulate, resolveKem, h1, h2, h3]

/-- Witness for C7: a 31-byte seed is rejected as `InvalidSeedLength`;
a 32-byte all-zero seed encapsulates to recipient scalar 1 with the
ephemeral key derived from that seed. -/
theorem c7_seed_length_check_witness :
    encapsulate [] (publicOfScalar 1) (some (List.replicate 31 0)) =
      .error .InvalidSeedLength ∧
    encapsulate [] (publicOfScalar 1) (some (List.replicate 32 0)) =
      .ok (kemExtractExpand
             (serializePoint (powMod (beDecode (publicOfScalar 1))
               (deriveScalar (List.replicate 32 0)) dhP))
             (serializePoint (powMod dhG (deriveScalar (List.replicate 32 0)) dhP) ++
               publicOfScalar 1) 32,
           serializePoint (powMod dhG (deriveScalar (List.replicate 32 0)) dhP)) :=
  ⟨(c7_seed_length_check [] (publicOfScalar 1) (List.replicate 31 0)).1 (by decide),
   (c7_seed_length_check [] (publicOfScalar 1) (List.replicate 32 0)).2
     (by decide) (by decide) (by decide)⟩

/-- C9: the binding surface declares exactly one entry point that takes
key-material byte arrays — `hpkeCtxSetupSenderWithSeed` — and its JNI
signature `(JJJJ[B[B[B)[B` makes the seed argument mandatory; its
semantics is independent of the randomness source, so every
encapsulation reachable across the boundary is a deterministic function
of its arguments. -/
theorem c9_single_seeded_sender_setup :
    ((ohttpJniSurface.filter takesByteArrays).map EntryPoint.name =
      ["hpkeCtxSetupSenderWithSeed"]) ∧
    ((ohttpJniSurface.filter takesByteArrays).map EntryPoint.params =
      [[.jlong, .jlong, .jlong, .jlong, .jbyteArray, .jbyteArray, .jbyteArray]]) ∧
    ∀ (rand1 rand2 : Bytes) (t : Table) (h : Nat) (suite : SuiteId) (pk info seed : Bytes),
      setupSenderWithSeed rand1 t h suite pk info seed =
        setupSenderWithSeed rand2 t h suite pk info seed :=
  ⟨by decide, by decide, fun _ _ _ _ _ _ _ _ => rfl⟩

/-- C3: the sealing context is a state machine: the sequence counter
starts at 0 out of the key schedule and increments by exactly 1 on each
successful seal/open; when the incremented counter would exceed
2^(8·nonceLength) − 1 the state becomes the terminal `Exhausted`, on
which every seal and open fails with `ContextExhausted` instead of
wrapping; a `Closed` context fails every seal with `ContextClosed`. -/
theorem c3_sequence_counter_state_machine :
    (∀ (ss : Bytes) (suite : SuiteId) (info : Bytes) (ctx : HpkeContext),
       schedule ss suite info = .ok ctx → ctx.seqNo = 0) ∧
    (∀ (ctx : HpkeContext) (pt ad : Bytes),
       ctx.seqNo + 1 ≤ maxSeq ctx.baseNonce.length →
       (sealMsg (.Active ctx) pt ad).1 = .Active { ctx with seqNo := ctx.seqNo + 1 }) ∧
    (∀ (ctx : HpkeContext) (ct ad pt : Bytes),
       ctx.seqNo + 1 ≤ maxSeq ctx.baseNonce.length →
       (openMsg (.Active ctx) ct ad).2 = .ok pt →
       (openMsg (.Active ctx) ct ad).1 = .Active { ctx with seqNo := ctx.seqNo + 1 }) ∧
    (∀ (ctx : HpkeContext) (pt ad : Bytes),
       maxSeq ctx.baseNonce.length < ctx.seqNo + 1 →
       (sealMsg (.Active ctx) pt ad).1 = .Exhausted) ∧
    (∀ (pt ad : Bytes), sealMsg .Exhausted pt ad = (.Exhausted, .error .ContextExhausted)) ∧
    (∀ (ct ad : Bytes), openMsg .Exhausted ct ad = (.Exhausted, .error .ContextExhausted)) ∧
    (∀ (pt ad : Bytes), sealMsg .Closed pt ad = (.Closed, .error .ContextClosed)) := by
  refine ⟨?_, ?_, ?_, ?_, fun _ _ => rfl, fun _ _ => rfl, fun _ _ => rfl⟩
  · intro ss suite info ctx h
    unfold schedule at h
    split at h
    · injection h with h2
      rw [← h2]
    · cases h
  · intro ctx pt ad h
    simp [sealMsg, h]
  · intro ctx ct ad pt h hok
    rcases he : aeadOpen ctx.tagLength ctx.aeadKey (computeNonce ctx.baseNonce ctx.seqNo) ad ct
      with _ | pt'
    · rw [openMsg_none ctx ct ad he] at hok
      cases hok
    · simp [openMsg, he, h]
  · intro ctx pt ad h
    simp [sealMsg, show ¬ (ctx.seqNo + 1 ≤ maxSeq ctx.baseNonce.length) from by omega]

/-- Witness for C3: concrete instances of each guarded conjunct — a
scheduled context starting at 0; a seal and a successful open stepping
seq 0 to 1 (nonce space 2^16); a seal on an empty nonce space (bound 0)
entering `Exhausted`. -/
theorem c3_sequence_counter_state_machine_witness :
    HpkeContext.seqNo
      { aeadKey := kdfLabeled 1 ⟨.dhkemX25519HkdfSha256, .hkdfSha256, .aes128Gcm⟩ [1] [2] 16
        baseNonce := kdfLabeled 2 ⟨.dhkemX25519HkdfSha256, .hkdfSha256, .aes128Gcm⟩ [1] [2] 12
        tagLength := 16
        seqNo := 0 } = 0 ∧
    (sealMsg (.Active ⟨[1], [0, 0], 2, 0⟩) [5] [6]).1 = .Active ⟨[1], [0, 0], 2, 1⟩ ∧
    (openMsg (.Active ⟨[1], [0, 0], 2, 0⟩)
        (aeadSeal 2 [1] (computeNonce [0, 0] 0) [6] [7]) [6]).1 =
      .Active ⟨[1], [0, 0], 2, 1⟩ ∧
    (sealMsg (.Active ⟨[1], [], 2, 0⟩) [5] [6]).1 = .Exhausted :=
  ⟨c3_sequence_counter_state_machine.1 [1] ⟨.dhkemX25519HkdfSha256, .hkdfSha256, .aes128Gcm⟩
      [2] _ (by decide),
   c3_sequence_counter_state_machine.2.1 ⟨[1], [0, 0], 2, 0⟩ [5] [6] (by decide),
   c3_sequence_counter_state_machine.2.2.1 ⟨[1], [0, 0], 2, 0⟩
      (aeadSeal 2 [1] (computeNonce [0, 0] 0) [6] [7]) [6] [7] (by decide) (by decide),
   c3_sequence_counter_state_machine.2.2.2.1 ⟨[1], [], 2, 0⟩ [5] [6] (by decide)⟩

/-- C5: an open that fails authentication is atomic: it yields no
plaintext (the result is the `AuthenticationFailure` error, not an `ok`)
and returns the context state — seqNo included — exactly as it was;
the counter advances only when open succeeds. -/
theorem c5_failed_open_is_atomic (ctx : HpkeContext) (ct ad : Bytes) :
    ((openMsg (.Active ctx) ct ad).2 = .error .AuthenticationFailure →
      openMsg (.Active ctx) ct ad = (.Active ctx, .error .AuthenticationFailure)) ∧
    (∀ pt, (openMsg (.Active ctx) ct ad).2 = .ok pt →
      (openMsg (.Active ctx) ct ad).1 = .Active { ctx with seqNo := ctx.seqNo + 1 } ∨
      (openMsg (.Active ctx) ct ad).1 = .Exhausted) := by
  constructor
  · intro h
    rcases he : aeadOpen ctx.tagLength ctx.aeadKey (computeNonce ctx.baseNonce ctx.seqNo) ad ct
      with _ | pt
    · exact openMsg_none ctx ct ad he
    · exfalso
      have h2 := openMsg_some ctx ct ad pt he
      rw [h2] at h
      cases h
  · intro pt hok
    rcases he : aeadOpen ctx.tagLength ctx.aeadKey (computeNonce ctx.baseNonce ctx.seqNo) ad ct
      with _ | pt'
    · rw [openMsg_none ctx ct ad he] at hok
      cases hok
    · by_cases hle : ctx.seqNo + 1 ≤ maxSeq ctx.baseNonce.length
      · left
        simp [openMsg, he, hle]
      · right
        simp [openMsg, he, hle]

/-- Witness for C5: opening an empty ciphertext (shorter than the tag)
on a concrete context fails authentication and leaves the state intact. -/
theorem c5_failed_open_is_atomic_witness :
    openMsg (.Active ⟨[1], [0], 2, 0⟩) [] [] =
      (.Active ⟨[1], [0], 2, 0⟩, .error .AuthenticationFailure) :=
  (c5_failed_open_is_atomic ⟨[1], [0], 2, 0⟩ [] []).1 (by decide)

theorem sealSteps_active : ∀ (msgs : List (Bytes × Bytes)) (ctx : HpkeContext),
    ctx.seqNo + msgs.length ≤ maxSeq ctx.baseNonce.length →
    sealSteps (.Active ctx) msgs = .Active { ctx with seqNo := ctx.seqNo + msgs.length } := by
  intro msgs
  induction msgs with
  | nil => intro ctx h; simp [sealSteps]
  | cons m ms ih =>
      intro ctx h
      have hlen : (m :: ms).length = ms.length + 1 := by simp
      have h1 : ctx.seqNo + 1 ≤ maxSeq ctx.baseNonce.length := by omega
      unfold sealSteps
      rw [List.foldl_cons]
      rw [show (sealMsg (.Active ctx) m.1 m.2).1 =
        CtxState.Active { ctx with seqNo := ctx.seqNo + 1 } from by simp [sealMsg, h1]]
      have h2 : ({ ctx with seqNo := ctx.seqNo + 1 } : HpkeContext).seqNo + ms.length ≤
          maxSeq ({ ctx with seqNo := ctx.seqNo + 1 } : HpkeContext).baseNonce.length := by
        simp
        omega
      rw [show List.foldl (fun s m1 => (sealMsg s m1.1 m1.2).1)
            (CtxState.Active { ctx with seqNo := ctx.seqNo + 1 }) ms =
          sealSteps (.Active { ctx with seqNo := ctx.seqNo + 1 }) ms from rfl]
      rw [ih { ctx with seqNo := ctx.seqNo + 1 } h2]
      have h3 : ctx.seqNo + 1 + ms.length = ctx.seqNo + (m :: ms).length := by
        simp
        omega
      simp only [h3]

theorem computeNonce_inj (b : Bytes) {m n : Nat} (hm : m < 2 ^ (8 * b.length))
    (hn : n < 2 ^ (8 * b.length)) (hne : m ≠ n) :
    computeNonce b m ≠ computeNonce b n := by
  intro h
  apply hne
  have h256 : (256 : Nat) ^ b.length = 2 ^ (8 * b.length) := by
    rw [show (256 : Nat) = 2 ^ 8 from rfl, ← pow_mul]
  have h2 := zipWith_xor_inj b _ _ (by rw [beEncode_length]) (by rw [beEncode_length]) h
  exact beEncode_inj (by rw [h256]; exact hm) (by rw [h256]; exact hn) h2

/-- C4: each seal uses nonce = base nonce XOR big-endian seqNo, so after
N successful seals on one context (all of which keep it Active, the
nonce space permitting) the (N+1)-th seal's nonce differs from the nonce
of the i-th seal for every i < N. -/
theorem c4_sealed_nonces_distinct (ctx : HpkeContext) (msgs : List (Bytes × Bytes)) (i : Nat)
    (h0 : ctx.seqNo = 0) (hN : msgs.length ≤ maxSeq ctx.baseNonce.length)
    (hi : i < msgs.length) :
    nextSealNonce (sealSteps (.Active ctx) msgs) =
      some (computeNonce ctx.baseNonce msgs.length) ∧
    nextSealNonce (sealSteps (.Active ctx) (msgs.take i)) =
      some (computeNonce ctx.baseNonce i) ∧
    computeNonce ctx.baseNonce msgs.length ≠ computeNonce ctx.baseNonce i := by
  have hpos : 0 < 2 ^ (8 * ctx.baseNonce.length) := Nat.pow_pos (by omega)
  have hNlt : msgs.length < 2 ^ (8 * ctx.baseNonce.length) := by
    unfold maxSeq at hN
    omega
  have hilt : i < 2 ^ (8 * ctx.baseNonce.length) := by omega
  refine ⟨?_, ?_, computeNonce_inj _ hNlt hilt (by omega)⟩
  · rw [sealSteps_active msgs ctx (by omega)]
    simp [nextSealNonce, h0]
  · have htk : (msgs.take i).length = i := by
      rw [List.length_take]
      omega
    rw [sealSteps_active (msgs.take i) ctx (by rw [htk]; omega)]
    simp [nextSealNonce, h0, htk]

/-- Witness for C4: after two seals on a fresh context with a 2-byte base
nonce, the next nonce (for seq 2) differs from the first nonce (seq 0). -/
theorem c4_sealed_nonces_distinct_witness :
    nextSealNonce (sealSteps (.Active ⟨[1], [0, 0], 2, 0⟩) [([1], [2]), ([3], [4])]) =
      some (computeNonce [0, 0] 2) ∧
    nextSealNonce (sealSteps (.Active ⟨[1], [0, 0], 2, 0⟩) ([([1], [2]), ([3], [4])].take 0)) =
      some (computeNonce [0, 0] 0) ∧
    computeNonce [0, 0] 2 ≠ computeNonce [0, 0] 0 :=
  c4_sealed_nonces_distinct ⟨[1], [0, 0], 2, 0⟩ [([1], [2]), ([3], [4])] 0
    (by decide) (by decide) (by decide)

theorem getD_eq_getElem (l : Bytes) (i : Nat) (h : i < l.length) : l.getD i 0 = l[i] := by
  simp [List.getD_eq_getElem?_getD, List.getElem?_eq_getElem h]

theorem getD_append_left (l1 l2 : Bytes) (i : Nat) (h : i < l1.length) :
    (l1 ++ l2).getD i 0 = l1.getD i 0 := by
  simp [List.getD_eq_getElem?_getD, List.getElem?_append_left h]

theorem getD_append_right (l1 l2 : Bytes) (i : Nat) (h : l1.length ≤ i) :
    (l1 ++ l2).getD i 0 = l2.getD (i - l1.length) 0 := by
  simp [List.getD_eq_getElem?_getD, List.getElem?_append_right h]

theorem getD_replicate (n c j : Nat) (h : j < n) : (List.replicate n c).getD j 0 = c := by
  rw [getD_eq_getElem _ _ (by simpa using h)]
  simp

theorem getD_set_self (l : Bytes) (i a : Nat) (h : i < l.length) :
    (l.set i a).getD i 0 = a := by
  rw [getD_eq_getElem _ _ (by simpa using h)]
  exact List.getElem_set_self (by simpa using h)

theorem flipBit_append_left (l1 l2 : Bytes) (i b : Nat) (h : i < l1.length) :
    flipBit (l1 ++ l2) i b = flipBit l1 i b ++ l2 := by
  unfold flipBit
  rw [getD_append_left _ _ _ h, List.set_append_left _ _ h]

theorem flipBit_append_right (l1 l2 : Bytes) (i b : Nat) (h : l1.length ≤ i) :
    flipBit (l1 ++ l2) i b = l1 ++ flipBit l2 (i - l1.length) b := by
  unfold flipBit
  rw [getD_append_right _ _ _ h, List.set_append_right _ _ h]

theorem replicate_ne {n : Nat} (hn : 0 < n) {a c : Nat} (h : a ≠ c) :
    List.replicate n a ≠ List.replicate n c := by
  intro he
  rw [List.replicate_inj] at he
  rcases he.2 with h0 | hac
  · omega
  · exact h hac

theorem set_flip_sum (l : Bytes) (i b : Nat) (hb : b < 8) (hl : ∀ x ∈ l, x < 256)
    (hi : i < l.length) :
    (flipBit l i b).sum + l.getD i 0 = l.sum + (l.getD i 0 ^^^ 2 ^ b) ∧
    l.getD i 0 < 256 ∧ (l.getD i 0 ^^^ 2 ^ b) < 256 ∧
    l.getD i 0 ≠ l.getD i 0 ^^^ 2 ^ b ∧ (flipBit l i b).length = l.length := by
  have hv : l.getD i 0 < 256 := by
    rw [getD_eq_getElem _ _ hi]
    exact hl _ (List.getElem_mem hi)
  have h2b : (2 : Nat) ^ b < 256 := by
    calc (2 : Nat) ^ b ≤ 2 ^ 7 := Nat.pow_le_pow_right (by omega) (by omega)
    _ < 256 := by omega
  exact ⟨sum_set_getD l i _ hi, hv, xor_lt_256 hv h2b, Ne.symm xor_pow_ne,
    by simp [flipBit]⟩

theorem aeadOpen_checksum_mismatch (tagLen : Nat) (key nonce ad body tag : Bytes)
    (htlen : tag.length = tagLen)
    (hne : tag ≠ aeadTag tagLen key nonce ad body) :
    aeadOpen tagLen key nonce ad (body ++ tag) = none := by
  unfold aeadOpen
  have hlen : (body ++ tag).length = body.length + tagLen := by simp [htlen]
  rw [hlen, if_pos (by omega)]
  have hsub : body.length + tagLen - tagLen = body.length := by omega
  rw [hsub, List.take_left' rfl, List.drop_left' rfl]
  rw [if_neg hne]

theorem beEncode_lt (len n : Nat) : ∀ x ∈ beEncode len n, x < 256 := by
  induction len generalizing n with
  | zero => intro x hx; simp [beEncode] at hx
  | succ k ih =>
      intro x hx
      rw [beEncode] at hx
      rcases List.mem_cons.mp hx with h | h
      · omega
      · exact ih n x h

theorem flipBit_replicate_ne (n c j b : Nat) (hj : j < n) :
    flipBit (List.replicate n c) j b ≠ List.replicate n c := by
  intro he
  have h1 := congrArg (fun l => l.getD j 0) he
  rw [show flipBit (List.replicate n c) j b = (List.replicate n c).set j (c ^^^ 2 ^ b) from by
    unfold flipBit; rw [getD_replicate _ _ _ hj]] at h1
  simp only at h1
  rw [getD_set_self _ _ _ (by simpa using hj), getD_replicate _ _ _ hj] at h1
  exact xor_pow_ne h1

theorem aeadOpen_flip_ct (tagLen : Nat) (key nonce ad pt : Bytes) (i b : Nat)
    (htag : 0 < tagLen) (hb : b < 8) (hpt : ∀ x ∈ pt, x < 256)
    (hi : i < (aeadSeal tagLen key nonce ad pt).length) :
    aeadOpen tagLen key nonce ad (flipBit (aeadSeal tagLen key nonce ad pt) i b) = none := by
  have hks := keystream_lt key nonce pt.length
  have hblt : ∀ x ∈ List.zipWith HXor.hXor pt (keystream key nonce pt.length), x < 256 :=
    zipWith_xor_lt pt _ hpt hks
  have hseal : aeadSeal tagLen key nonce ad pt =
      List.zipWith HXor.hXor pt (keystream key nonce pt.length) ++
        aeadTag tagLen key nonce ad (List.zipWith HXor.hXor pt (keystream key nonce pt.length)) :=
    rfl
  rw [hseal] at hi ⊢
  by_cases hcase : i < (List.zipWith HXor.hXor pt (keystream key nonce pt.length)).length
  · rw [flipBit_append_left _ _ _ _ hcase]
    obtain ⟨hsum, hv, hw, hvw, hfl⟩ := set_flip_sum _ i b hb hblt hcase
    apply aeadOpen_checksum_mismatch _ _ _ _ _ _ (aeadTag_length _ _ _ _ _)
    simp only [aeadTag]
    apply replicate_ne htag
    exact checksum_ne hv hw hvw (by omega)
  · push_neg at hcase
    rw [flipBit_append_right _ _ _ _ hcase]
    have hj : i - (List.zipWith HXor.hXor pt (keystream key nonce pt.length)).length < tagLen := by
      rw [List.length_append, aeadTag_length] at hi
      omega
    apply aeadOpen_checksum_mismatch
    · simp [flipBit, aeadTag]
    · simp only [aeadTag]
      exact flipBit_replicate_ne _ _ _ _ hj

theorem aeadOpen_flip_ad (tagLen : Nat) (key nonce ad pt : Bytes) (i b : Nat)
    (htag : 0 < tagLen) (hb : b < 8) (had : ∀ x ∈ ad, x < 256) (hi : i < ad.length) :
    aeadOpen tagLen key nonce (flipBit ad i b) (aeadSeal tagLen key nonce ad pt) = none := by
  obtain ⟨hsum, hv, hw, hvw, hfl⟩ := set_flip_sum ad i b hb had hi
  have hseal : aeadSeal tagLen key nonce ad pt =
      List.zipWith HXor.hXor pt (keystream key nonce pt.length) ++
        aeadTag tagLen key nonce ad (List.zipWith HXor.hXor pt (keystream key nonce pt.length)) :=
    rfl
  rw [hseal]
  apply aeadOpen_checksum_mismatch _ _ _ _ _ _ (aeadTag_length _ _ _ _ _)
  simp only [aeadTag, hfl]
  apply replicate_ne htag
  exact checksum_ne hv hw hvw (by omega)

theorem aeadOpen_flip_nonce (tagLen : Nat) (key nonce ad pt : Bytes) (i b : Nat)
    (htag : 0 < tagLen) (hb : b < 8) (hn : ∀ x ∈ nonce, x < 256) (hi : i < nonce.length) :
    aeadOpen tagLen key (flipBit nonce i b) ad (aeadSeal tagLen key nonce ad pt) = none := by
  obtain ⟨hsum, hv, hw, hvw, hfl⟩ := set_flip_sum nonce i b hb hn hi
  have hseal : aeadSeal tagLen key nonce ad pt =
      List.zipWith HXor.hXor pt (keystream key nonce pt.length) ++
        aeadTag tagLen key nonce ad (List.zipWith HXor.hXor pt (keystream key nonce pt.length)) :=
    rfl
  rw [hseal]
  apply aeadOpen_checksum_mismatch _ _ _ _ _ _ (aeadTag_length _ _ _ _ _)
  simp only [aeadTag]
  apply replicate_ne htag
  exact checksum_ne hv hw hvw (by omega)

/-- C8: for every sealed message, flipping any single bit of the
ciphertext or of the associated data makes the corresponding open fail
with `AuthenticationFailure` and return no plaintext, leaving the
context untouched; flipping any single bit of the nonce makes the
underlying AEAD open reject likewise. -/
theorem c8_bit_flip_tamper_detected (ctx : HpkeContext) (pt ad : Bytes) (b : Nat)
    (htag : 0 < ctx.tagLength) (hb : b < 8)
    (hpt : ∀ x ∈ pt, x < 256) (had : ∀ x ∈ ad, x < 256)
    (hnb : ∀ x ∈ ctx.baseNonce, x < 256) :
    (∀ i, i < (aeadSeal ctx.tagLength ctx.aeadKey
        (computeNonce ctx.baseNonce ctx.seqNo) ad pt).length →
      openMsg (.Active ctx)
        (flipBit (aeadSeal ctx.tagLength ctx.aeadKey
          (computeNonce ctx.baseNonce ctx.seqNo) ad pt) i b) ad =
        (.Active ctx, .error .AuthenticationFailure)) ∧
    (∀ i, i < ad.length →
      openMsg (.Active ctx)
        (aeadSeal ctx.tagLength ctx.aeadKey (computeNonce ctx.baseNonce ctx.seqNo) ad pt)
        (flipBit ad i b) =
        (.Active ctx, .error .AuthenticationFailure)) ∧
    (∀ i, i < (computeNonce ctx.baseNonce ctx.seqNo).length →
      aeadOpen ctx.tagLength ctx.aeadKey
        (flipBit (computeNonce ctx.baseNonce ctx.seqNo) i b) ad
        (aeadSeal ctx.tagLength ctx.aeadKey
          (computeNonce ctx.baseNonce ctx.seqNo) ad pt) = none) := by
  have hnonce : ∀ x ∈ computeNonce ctx.baseNonce ctx.seqNo, x < 256 :=
    zipWith_xor_lt _ _ hnb (beEncode_lt _ _)
  refine ⟨fun i hi => ?_, fun i hi => ?_, fun i hi => ?_⟩
  · exact openMsg_none _ _ _ (aeadOpen_flip_ct _ _ _ _ _ _ _ htag hb hpt hi)
  · exact openMsg_none _ _ _ (aeadOpen_flip_ad _ _ _ _ _ _ _ htag hb had hi)
  · exact aeadOpen_flip_nonce _ _ _ _ _ _ _ htag hb hnonce hi

/-- Witness for C8: on a concrete context (2-byte tag), flipping bit 3 of
byte 0 of the ciphertext, of the associated data, or of the nonce makes
the corresponding open fail. -/
theorem c8_bit_flip_tamper_detected_witness :
    openMsg (.Active ⟨[1], [7, 9], 2, 0⟩)
      (flipBit (aeadSeal 2 [1] (computeNonce [7, 9] 0) [4] [5, 6]) 0 3) [4] =
      (.Active ⟨[1], [7, 9], 2, 0⟩, .error .AuthenticationFailure) ∧
    openMsg (.Active ⟨[1], [7, 9], 2, 0⟩)
      (aeadSeal 2 [1] (computeNonce [7, 9] 0) [4] [5, 6]) (flipBit [4] 0 3) =
      (.Active ⟨[1], [7, 9], 2, 0⟩, .error .AuthenticationFailure) ∧
    aeadOpen 2 [1] (flipBit (computeNonce [7, 9] 0) 0 3) [4]
      (aeadSeal 2 [1] (computeNonce [7, 9] 0) [4] [5, 6]) = none :=
  ⟨(c8_bit_flip_tamper_detected ⟨[1], [7, 9], 2, 0⟩ [5, 6] [4] 3
      (by decide) (by decide) (by decide) (by decide) (by decide)).1 0 (by decide),
   (c8_bit_flip_tamper_detected ⟨[1], [7, 9], 2, 0⟩ [5, 6] [4] 3
      (by decide) (by decide) (by decide) (by decide) (by decide)).2.1 0 (by decide),
   (c8_bit_flip_tamper_detected ⟨[1], [7, 9], 2, 0⟩ [5, 6] [4] 3
      (by decide) (by decide) (by decide) (by decide) (by decide)).2.2 0 (by decide)⟩

theorem lookupCtx_none_of_absent (t : Table) (h : Nat)
    (habs : ∀ p ∈ t.entries, p.1 ≠ h) : lookupCtx t h = none := by
  unfold lookupCtx
  rw [List.find?_eq_none.mpr]
  · rfl
  · intro p hp
    simp [habs p hp]

theorem hpkeCtxFree_absent_keys (t : Table) (h : Nat) :
    ∀ p ∈ (hpkeCtxFree t h).entries, p.1 ≠ h := by
  intro p hp
  unfold hpkeCtxFree at hp
  simp only [List.mem_filter, decide_eq_true_eq] at hp
  exact hp.2

theorem hpkeCtxFree_idem (t : Table) (h : Nat) :
    hpkeCtxFree (hpkeCtxFree t h) h = hpkeCtxFree t h := by
  unfold hpkeCtxFree
  simp [List.filter_filter]

theorem applyOp_next_mono (t : Table) (op : TableOp) : t.next ≤ (applyOp t op).next := by
  cases op with
  | ins c => simp [applyOp, insertCtx]
  | free h' => exact Nat.le_refl _
  | sealVia h' pt ad =>
      simp only [applyOp, tableSeal]
      split
      · exact Nat.le_refl _
      · exact Nat.le_refl _

theorem applyOp_preserves_absent (t : Table) (op : TableOp) (h : Nat)
    (habs : ∀ p ∈ t.entries, p.1 ≠ h) (hlt : h < t.next) :
    ∀ p ∈ (applyOp t op).entries, p.1 ≠ h := by
  cases op with
  | ins c =>
      intro p hp
      simp only [applyOp, insertCtx, List.mem_cons] at hp
      rcases hp with h1 | h1
      · rw [h1]
        simp
        omega
      · exact habs p h1
  | free h' =>
      intro p hp
      simp only [applyOp, hpkeCtxFree, List.mem_filter] at hp
      exact habs p hp.1
  | sealVia h' pt ad =>
      intro p hp
      simp only [applyOp, tableSeal] at hp
      split at hp
      · exact habs p hp
      · simp only [updateCtx] at hp
        rcases List.mem_map.mp hp with ⟨q, hq, hfq⟩
        have hkey : p.1 = q.1 := by
          by_cases hqq : q.1 == h'
          · simp [hqq] at hfq
            rw [← hfq]
          · simp [hqq] at hfq
            rw [← hfq]
        rw [hkey]
        exact habs q hq

theorem runOps_preserves_absent : ∀ (ops : List TableOp) (t : Table) (h : Nat),
    (∀ p ∈ t.entries, p.1 ≠ h) → h < t.next →
    (∀ p ∈ (runOps t ops).entries, p.1 ≠ h) ∧ h < (runOps t ops).next := by
  intro ops
  induction ops with
  | nil => intro t h h1 h2; exact ⟨h1, h2⟩
  | cons op rest ih =>
      intro t h h1 h2
      have h3 := applyOp_preserves_absent t op h h1 h2
      have h4 : h < (applyOp t op).next := Nat.lt_of_lt_of_le h2 (applyOp_next_mono t op)
      exact ih (applyOp t op) h h3 h4

/-- C6: after `hpkeCtxFree` on an issued handle H, every later table
operation on H — lookup, seal via H — yields `InvalidHandle` (modelled
as `none` for lookup and the `InvalidHandle` error with the table left
unchanged for seal), never stale data, whatever operations ran in
between; and freeing H a second time has no further effect.  Handles
are never reused, so no later context can occupy H. -/
theorem c6_freed_handle_isolation (t : Table) (h : Nat) (ops : List TableOp) (pt ad : Bytes)
    (hlt : h < t.next) :
    lookupCtx (runOps (hpkeCtxFree t h) ops) h = none ∧
    tableSeal (runOps (hpkeCtxFree t h) ops) h pt ad =
      (runOps (hpkeCtxFree t h) ops, .error .InvalidHandle) ∧
    hpkeCtxFree (hpkeCtxFree t h) h = hpkeCtxFree t h := by
  have habs := hpkeCtxFree_absent_keys t h
  have hnext : h < (hpkeCtxFree t h).next := hlt
  obtain ⟨ha, _⟩ := runOps_preserves_absent ops (hpkeCtxFree t h) h habs hnext
  have hlk := lookupCtx_none_of_absent _ _ ha
  refine ⟨hlk, ?_, hpkeCtxFree_idem t h⟩
  unfold tableSeal
  rw [hlk]

/-- Witness for C6: handle 0 freed from a one-entry table stays invalid
across a later insert, and the second free is a no-op. -/
theorem c6_freed_handle_isolation_witness :
    lookupCtx (runOps (hpkeCtxFree ⟨1, [(0, .Closed)]⟩ 0) [.ins .Exhausted]) 0 = none ∧
    tableSeal (runOps (hpkeCtxFree ⟨1, [(0, .Closed)]⟩ 0) [.ins .Exhausted]) 0 [1] [2] =
      (runOps (hpkeCtxFree ⟨1, [(0, .Closed)]⟩ 0) [.ins .Exhausted], .error .InvalidHandle) ∧
    hpkeCtxFree (hpkeCtxFree ⟨1, [(0, .Closed)]⟩ 0) 0 = hpkeCtxFree ⟨1, [(0, .Closed)]⟩ 0 :=
  c6_freed_handle_isolation ⟨1, [(0, .Closed)]⟩ 0 [.ins .Exhausted] [1] [2] (by decide)

/-- C10: the header's `hpkeCtxFree` takes one `jlong` (an arbitrary
64-bit handle) and returns `void`, so no error is ever signalled; in the
model the free is a total function on tables: idempotent, and the
identity on a table that does not hold the handle (valid, freed and
never-issued handles all included). -/
theorem c10_free_is_total_and_silent :
    (ohttpJniSurface.filter (fun e => e.name == "hpkeCtxFree") =
      [⟨"hpkeCtxFree", [.jlong], .jvoid⟩]) ∧
    ∀ (t : Table) (h : Nat), h < 2 ^ 64 →
      hpkeCtxFree (hpkeCtxFree t h) h = hpkeCtxFree t h ∧
      (lookupCtx t h = none → hpkeCtxFree t h = t) := by
  refine ⟨by decide, fun t h _ => ⟨hpkeCtxFree_idem t h, fun hl => ?_⟩⟩
  have hfind : t.entries.find? (fun p => p.1 == h) = none := by
    cases hf : t.entries.find? (fun p => p.1 == h)
    · rfl
    · unfold lookupCtx at hl
      rw [hf] at hl
      cases hl
  have habs : ∀ p ∈ t.entries, p.1 ≠ h := by
    intro p hp
    have := List.find?_eq_none.mp hfind p hp
    simpa using this
  have hfe : t.entries.filter (fun p => decide (p.1 ≠ h)) = t.entries :=
    List.filter_eq_self.mpr (fun a ha => by simp [habs a ha])
  unfold hpkeCtxFree
  rw [hfe]

/-- Witness for C10: freeing handle 3 on the empty table twice equals
freeing it once, and freeing it once changes nothing. -/
theorem c10_free_is_total_and_silent_witness :
    hpkeCtxFree (hpkeCtxFree Table.empty 3) 3 = hpkeCtxFree Table.empty 3 ∧
    hpkeCtxFree Table.empty 3 = Table.empty :=
  ⟨(c10_free_is_total_and_silent.2 Table.empty 3 (by decide)).1,
   (c10_free_is_total_and_silent.2 Table.empty 3 (by decide)).2 (by decide)⟩

end Ohttp
